import Mathlib

set_option maxRecDepth 4000
set_option maxHeartbeats 1000000

/-!
Shallow embedding of `customer_segmentation.py` (basic RFM customer
segmentation) together with proofs of the specified properties.

Conventions of the embedding:
* a pandas DataFrame of transaction lines is a `List RawRow`; nullable cells
  are `Option` values (`none` models pandas `NaN`/`NaT`);
* timestamps are rational numbers counting (possibly fractional) days on the
  `datetime.toordinal` scale, so `datetime(2011, 12, 11)` is the number
  `734482` and `(a - b).days` is `⌊a - b⌋`;
* `float` arithmetic of the source is modelled with exact rationals;
* `pd.Series.quantile` (linear interpolation) sorts the non-null values and
  interpolates at position `q * (n - 1)`;
* `pd.qcut(xs, 5, labels)` computes the 6 quantile edges, raises
  (modelled as `none`) when the edges are not pairwise distinct, and
  otherwise assigns to a value the label of its right-closed bin;
* `Series.rank(method="first")` ranks values, breaking ties by position;
* `Series.replace(dict, regex=True)` applies each pattern of the dict in
  order by regex substitution on the current value; the patterns of
  `segment_map` are pairs of character classes matched against two adjacent
  characters;
* `DataFrame.dropna(inplace=True)` mutates the caller's frame, so
  `data_preprocess` returns a pair: the state of its (mutated) argument and
  the frame it returns;
* `.astype(int)` on a float value truncates toward zero (`Int.tdiv`).
-/

namespace RFM

/-- One raw transaction line of the input file.  Every column is nullable
(pandas can read any cell as missing). -/
structure RawRow where
  invoiceNo : Option String
  stockCode : Option String
  description : Option String
  quantity : Option ℚ
  invoiceDate : Option ℚ
  unitPrice : Option ℚ
  customerID : Option ℚ
  country : Option String
deriving DecidableEq

/-- A transaction line after `df["TotalPrice"] = df["Quantity"] * df["UnitPrice"]`
added the derived column. -/
structure CleanRow where
  invoiceNo : Option String
  stockCode : Option String
  description : Option String
  quantity : Option ℚ
  invoiceDate : Option ℚ
  unitPrice : Option ℚ
  customerID : Option ℚ
  country : Option String
  totalPrice : Option ℚ
deriving DecidableEq

/-- One row of the `rfm` frame right after the `groupby`/`agg` step
(lines 141-145 of the source): Recency, Frequency, Monetary, indexed by the
(float-valued) `CustomerID`. -/
structure RfmRec where
  customerID : ℚ
  recency : ℤ
  frequency : ℕ
  monetary : ℚ
deriving DecidableEq

/-- One row of the final segmented frame returned by
`create_segment_dataframe` (scores, RF code and segment attached, index cast
to int). -/
structure SegRow where
  customerID : ℤ
  recency : ℤ
  frequency : ℕ
  monetary : ℚ
  recencyScore : ℕ
  frequencyScore : ℕ
  monetaryScore : ℕ
  rfScore : String
  customerSegment : String
deriving DecidableEq

/-- A row has no missing cell (pandas `dropna` keeps exactly these rows). -/
def isComplete (r : RawRow) : Bool :=
  r.invoiceNo.isSome && r.stockCode.isSome && r.description.isSome &&
  r.quantity.isSome && r.invoiceDate.isSome && r.unitPrice.isSome &&
  r.customerID.isSome && r.country.isSome

/-- `dataframe.dropna()`: drop every row that has any missing cell. -/
def dropna (df : List RawRow) : List RawRow :=
  df.filter (fun r => isComplete r)

/-- `dataframe["InvoiceNo"].str.contains("C", na=False)`: substring match of
the one-character cancellation marker, case sensitive; a missing invoice
number counts as not matching. -/
def cancelMatch (o : Option String) : Bool :=
  match o with
  | some s => s.data.contains 'C'
  | none => false

/-- `dataframe[~dataframe["InvoiceNo"].str.contains("C", na=False)]`. -/
def dropCancelled (df : List RawRow) : List RawRow :=
  df.filter (fun r => !cancelMatch r.invoiceNo)

/-- Linear-interpolation quantile of an already sorted list of values
(`numpy`/pandas `interpolation="linear"`): interpolate at fractional
position `q * (n - 1)`.  The quantile of an empty series is junk (pandas
gives `NaN`); `0` is used here, the pipeline never takes that branch. -/
def quantileSorted (s : List ℚ) (q : ℚ) : ℚ :=
  let pos : ℚ := q * ((s.length : ℚ) - 1)
  let i : ℕ := (⌊pos⌋).toNat
  if i + 1 < s.length then
    s.getD i 0 + (pos - (i : ℚ)) * (s.getD (i + 1) 0 - s.getD i 0)
  else s.getD i 0

/-- `Series.quantile(q)`: sort the values, then interpolate. -/
def quantile (xs : List ℚ) (q : ℚ) : ℚ :=
  quantileSorted (List.insertionSort (· ≤ ·) xs) q

/-- `find_thresholds(dataframe, variable)` of the source: Tukey fences from
the first and third quartiles of the (non-null) values of one column. -/
def find_thresholds (df : List RawRow) (get : RawRow → Option ℚ) : ℚ × ℚ :=
  let vals := df.filterMap get
  let q1 := quantile vals (1 / 4)
  let q3 := quantile vals (3 / 4)
  let qRange := q3 - q1
  (q1 - 3 / 2 * qRange, q3 + 3 / 2 * qRange)

/-- `replace_with_thresholds(dataframe, variable)` of the source: the two
masked assignments `df.loc[df[v] < low, v] = low` and then
`df.loc[df[v] > up, v] = up`; a missing cell satisfies neither mask. -/
def replace_with_thresholds (df : List RawRow) (get : RawRow → Option ℚ)
    (set : ℚ → RawRow → RawRow) : List RawRow :=
  let t := find_thresholds df get
  let pass1 := df.map (fun r =>
    match get r with
    | some v => if v < t.1 then set t.1 r else r
    | none => r)
  pass1.map (fun r =>
    match get r with
    | some v => if t.2 < v then set t.2 r else r
    | none => r)

/-- `dataframe["TotalPrice"] = dataframe["Quantity"] * dataframe["UnitPrice"]`:
the derived column for one row (missing factors propagate to a missing
product, as NaN does). -/
def addTotalPrice (r : RawRow) : CleanRow :=
  { invoiceNo := r.invoiceNo, stockCode := r.stockCode,
    description := r.description, quantity := r.quantity,
    invoiceDate := r.invoiceDate, unitPrice := r.unitPrice,
    customerID := r.customerID, country := r.country,
    totalPrice :=
      match r.quantity, r.unitPrice with
      | some a, some b => some (a * b)
      | _, _ => none }

/-- `data_preprocess(dataframe)` of the source.  `dropna(inplace=True)`
mutates the caller's frame; the later steps rebind the local name to new
frames.  The first component of the result is the caller's frame after the
call, the second is the frame the function returns. -/
def data_preprocess (df : List RawRow) : List RawRow × List CleanRow :=
  let afterDropna := dropna df
  let afterCancel := dropCancelled afterDropna
  let afterQuantity := replace_with_thresholds afterCancel
    (fun r => r.quantity) (fun v r => { r with quantity := some v })
  let afterUnitPrice := replace_with_thresholds afterQuantity
    (fun r => r.unitPrice) (fun v r => { r with unitPrice := some v })
  (afterDropna, afterUnitPrice.map addTotalPrice)

/-- `todays_date = dt.datetime(2011, 12, 11)` on the `toordinal` day scale. -/
def todays_date : ℚ := 734482

/-- The rows of one `groupby("CustomerID")` group. -/
def groupRows (df : List CleanRow) (c : ℚ) : List CleanRow :=
  df.filter (fun r => decide (r.customerID = some c))

/-- The group keys of `groupby("CustomerID")`: distinct non-null customer
ids, in ascending order (pandas sorts group keys). -/
def customerKeys (df : List CleanRow) : List ℚ :=
  List.insertionSort (· ≤ ·) (df.filterMap (fun r => r.customerID)).dedup

/-- `(todays_date - invoice_date.max()).days` for one customer's group. -/
def recencyOf (df : List CleanRow) (c : ℚ) : ℤ :=
  ⌊todays_date - (((groupRows df c).filterMap (fun r => r.invoiceDate)).max?.getD 0)⌋

/-- `invoice_no.nunique()` for one customer's group. -/
def frequencyOf (df : List CleanRow) (c : ℚ) : ℕ :=
  ((groupRows df c).filterMap (fun r => r.invoiceNo)).dedup.length

/-- `total_price.sum()` for one customer's group. -/
def monetaryOf (df : List CleanRow) (c : ℚ) : ℚ :=
  ((groupRows df c).filterMap (fun r => r.totalPrice)).sum

/-- Lines 141-145 of the source: `groupby("CustomerID").agg({...})` with the
columns renamed to Recency, Frequency, Monetary. -/
def rfmAggregate (df : List CleanRow) : List RfmRec :=
  (customerKeys df).map (fun c =>
    { customerID := c, recency := recencyOf df c,
      frequency := frequencyOf df c, monetary := monetaryOf df c })

/-- `rfm = rfm[rfm["Monetary"] > 0]` applied to the aggregated frame. -/
def rfmKept (df : List CleanRow) : List RfmRec :=
  (rfmAggregate df).filter (fun a => decide (0 < a.monetary))

/-- The Recency column passed to `pd.qcut`. -/
def recencyValues (df : List CleanRow) : List ℚ :=
  (rfmKept df).map (fun a => (a.recency : ℚ))

/-- The Frequency column before rank transformation. -/
def frequencyValues (df : List CleanRow) : List ℚ :=
  (rfmKept df).map (fun a => (a.frequency : ℚ))

/-- The Monetary column passed to `pd.qcut`. -/
def monetaryValues (df : List CleanRow) : List ℚ :=
  (rfmKept df).map (fun a => a.monetary)

/-- The rank of the element at position `i` under
`Series.rank(method="first")`: one plus the number of strictly smaller
values plus the number of equal values at earlier positions (the element
itself is counted by the second summand). -/
def rankAt (xs : List ℚ) (i : ℕ) : ℕ :=
  xs.countP (fun y => decide (y < xs.getD i 0)) +
    (xs.take (i + 1)).countP (fun y => decide (y = xs.getD i 0))

/-- `Series.rank(method="first")` as a list of (rational) ranks. -/
def rankFirst (xs : List ℚ) : List ℚ :=
  (List.range xs.length).map (fun i => ((rankAt xs i : ℕ) : ℚ))

/-- The 6 bin edges `pd.qcut(xs, 5, ...)` computes: quantiles at
`0, 0.2, 0.4, 0.6, 0.8, 1`. -/
def qcutEdges (xs : List ℚ) : List ℚ :=
  (List.range 6).map (fun (j : ℕ) => quantile xs ((j : ℚ) / 5))

/-- The 4 interior bin edges. -/
def innerEdges (xs : List ℚ) : List ℚ :=
  ((qcutEdges xs).drop 1).take 4

/-- The 0-based bin of a value under right-closed binning with
`include_lowest=True`: the number of interior edges strictly below it. -/
def binIndex (xs : List ℚ) (v : ℚ) : ℕ :=
  (innerEdges xs).countP (fun e => decide (e < v))

/-- `pd.qcut(xs, 5, labels=labels)`: raises `ValueError` (modelled `none`)
when the computed bin edges are not unique, otherwise labels every value by
its bin. -/
def qcut (xs : List ℚ) (labels : List ℕ) : Option (List ℕ) :=
  if (qcutEdges xs).Nodup then
    some (xs.map (fun v => labels.getD (binIndex xs v) 0))
  else none

/-- The ordered `segment_map` of the source.  Each regex pattern is over two
adjacent characters, each taken from a character class; the entry keeps the
two classes and the replacement label.  (`r"[1-2][3-4]"` becomes
`(['1','2'], ['3','4'], "At Risk")`, and a singleton class such as `r"33"`
becomes `(['3'], ['3'], "Need Attention")`.) -/
def segment_map : List (List Char × List Char × String) :=
  [(['1', '2'], ['1', '2'], "Hibernating"),
   (['1', '2'], ['3', '4'], "At Risk"),
   (['1', '2'], ['5'], "Can\x27t Lose"),
   (['3'], ['1', '2'], "About to Sleep"),
   (['3'], ['3'], "Need Attention"),
   (['3', '4'], ['4', '5'], "Loyal Customer"),
   (['4'], ['1'], "Promising"),
   (['5'], ['1'], "New Customer"),
   (['4', '5'], ['2', '3'], "Potential Loyalist"),
   (['5'], ['4', '5'], "Champion")]

/-- `re.sub` for one two-character-class pattern: scan left to right, replace
every (non-overlapping) match of the pattern by the label and continue after
the replaced span. -/
def substPattern (p1 p2 lbl : List Char) : List Char → List Char
  | [] => []
  | [c] => [c]
  | c1 :: c2 :: rest =>
    if c1 ∈ p1 ∧ c2 ∈ p2 then lbl ++ substPattern p1 p2 lbl rest
    else c1 :: substPattern p1 p2 lbl (c2 :: rest)
termination_by l => l.length

/-- `rfm["RF_Score"].replace(segment_map, regex=True)` applied to one value:
every pattern of the dict is substituted in order on the current value. -/
def applySegmentMap (s : String) : String :=
  segment_map.foldl
    (fun v rule => String.mk (substPattern rule.1 rule.2.1 rule.2.2.data v.data)) s

/-- `.astype(int)` on a float value: truncation toward zero. -/
def ratToInt (q : ℚ) : ℤ :=
  q.num.tdiv (q.den : ℤ)

/-- Junk record for positional (`getD`) access; never reached, every index
used is in range. -/
def defaultRfm : RfmRec :=
  { customerID := 0, recency := 0, frequency := 0, monetary := 0 }

/-- One scored row: the RFM record of a kept customer together with its
three quintile scores, its RF code (`astype(str)` concatenation of the
recency and frequency scores), its segment and the int-cast customer id. -/
def scoreRow (a : RfmRec) (r f m : ℕ) : SegRow :=
  { customerID := ratToInt a.customerID, recency := a.recency,
    frequency := a.frequency, monetary := a.monetary,
    recencyScore := r, frequencyScore := f, monetaryScore := m,
    rfScore := toString r ++ toString f,
    customerSegment := applySegmentMap (toString r ++ toString f) }

/-- `create_segment_dataframe(dataframe)` of the source: aggregate, drop
non-positive Monetary, quintile-score the three metrics (`none` when a
`pd.qcut` raises), attach the RF code and the segment, cast the index to
int. -/
def create_segment_dataframe (df : List CleanRow) : Option (List SegRow) :=
  match qcut (recencyValues df) [5, 4, 3, 2, 1],
      qcut (rankFirst (frequencyValues df)) [1, 2, 3, 4, 5],
      qcut (monetaryValues df) [1, 2, 3, 4, 5] with
  | some rs, some fs, some ms =>
    some ((List.range (rfmKept df).length).map (fun i =>
      scoreRow ((rfmKept df).getD i defaultRfm)
        (rs.getD i 0) (fs.getD i 0) (ms.getD i 0)))
  | _, _, _ => none

/-- Modelled from the spec: the segment table of §4.4, read row by row as an
ordered first-match dispatch on the (recency digit, frequency digit) pair.
This is the specification-side definition the code's `segment_map`
substitution is compared against. -/
def spec_segment (r f : ℕ) : String :=
  if (r = 1 ∨ r = 2) ∧ (f = 1 ∨ f = 2) then "Hibernating"
  else if (r = 1 ∨ r = 2) ∧ (f = 3 ∨ f = 4) then "At Risk"
  else if (r = 1 ∨ r = 2) ∧ f = 5 then "Can\x27t Lose"
  else if r = 3 ∧ (f = 1 ∨ f = 2) then "About to Sleep"
  else if r = 3 ∧ f = 3 then "Need Attention"
  else if (r = 3 ∨ r = 4) ∧ (f = 4 ∨ f = 5) then "Loyal Customer"
  else if r = 4 ∧ f = 1 then "Promising"
  else if r = 5 ∧ f = 1 then "New Customer"
  else if (r = 4 ∨ r = 5) ∧ (f = 2 ∨ f = 3) then "Potential Loyalist"
  else if r = 5 ∧ (f = 4 ∨ f = 5) then "Champion"
  else ""

/-- One synthetic cleaned transaction line (helper for the concrete test
tables below). -/
def mkClean (inv : String) (q : ℚ) (date : ℚ) (p : ℚ) (c : ℚ) : CleanRow :=
  { invoiceNo := some inv, stockCode := some "85123A",
    description := some "ITEM", quantity := some q,
    invoiceDate := some date, unitPrice := some p,
    customerID := some c, totalPrice := some (q * p),
    country := some "United Kingdom" }

/-- Five customers, one invoice each: Frequency is constantly 1 (a single
distinct value), Recency and Monetary take five distinct values. -/
def testTableA : List CleanRow :=
  [mkClean "536301" 1 (todays_date - 1) 10 1,
   mkClean "536302" 2 (todays_date - 2) 10 2,
   mkClean "536303" 3 (todays_date - 3) 10 3,
   mkClean "536304" 4 (todays_date - 4) 10 4,
   mkClean "536305" 5 (todays_date - 5) 10 5]

/-- Ten customers, one invoice each, with the duplicated recency value 2
straddling the lowest quintile edge. -/
def testTableB : List CleanRow :=
  [mkClean "536311" 1 (todays_date - 1) 10 1,
   mkClean "536312" 2 (todays_date - 2) 10 2,
   mkClean "536313" 3 (todays_date - 2) 10 3,
   mkClean "536314" 4 (todays_date - 3) 10 4,
   mkClean "536315" 5 (todays_date - 4) 10 5,
   mkClean "536316" 6 (todays_date - 5) 10 6,
   mkClean "536317" 7 (todays_date - 6) 10 7,
   mkClean "536318" 8 (todays_date - 7) 10 8,
   mkClean "536319" 9 (todays_date - 8) 10 9,
   mkClean "536320" 10 (todays_date - 9) 10 10]

/-- The successfully scored segment table of `testTableA` (used by the
witnesses). -/
def segOutA : List SegRow :=
  (create_segment_dataframe testTableA).getD []

/-- A cleaned row has no missing cell in any of its nine columns. -/
def cleanComplete (r : CleanRow) : Bool :=
  r.invoiceNo.isSome && r.stockCode.isSome && r.description.isSome &&
  r.quantity.isSome && r.invoiceDate.isSome && r.unitPrice.isSome &&
  r.customerID.isSome && r.country.isSome && r.totalPrice.isSome

/-- Junk raw row for positional (`getD`) access. -/
def defaultRaw : RawRow :=
  { invoiceNo := none, stockCode := none, description := none,
    quantity := none, invoiceDate := none, unitPrice := none,
    customerID := none, country := none }

/-- Junk cleaned row for positional (`getD`) access. -/
def defaultClean : CleanRow :=
  { invoiceNo := none, stockCode := none, description := none,
    quantity := none, invoiceDate := none, unitPrice := none,
    customerID := none, country := none, totalPrice := none }

/-- Junk segmented row for positional (`getD`) access. -/
def defaultSeg : SegRow :=
  { customerID := 0, recency := 0, frequency := 0, monetary := 0,
    recencyScore := 0, frequencyScore := 0, monetaryScore := 0,
    rfScore := "", customerSegment := "" }

/-- A small raw input table: a fully populated regular row, a cancellation
row, a row with a missing customer id, a second regular row and an outlier
row. -/
def rawTable : List RawRow :=
  [{ invoiceNo := some "536365", stockCode := some "85123A",
     description := some "WHITE HANGING HEART", quantity := some 6,
     invoiceDate := some (todays_date - 10), unitPrice := some 3,
     customerID := some 17850, country := some "United Kingdom" },
   { invoiceNo := some "C536379", stockCode := some "D",
     description := some "Discount", quantity := some (-1),
     invoiceDate := some (todays_date - 9), unitPrice := some 28,
     customerID := some 14527, country := some "United Kingdom" },
   { invoiceNo := some "536381", stockCode := some "71053",
     description := some "METAL LANTERN", quantity := some 4,
     invoiceDate := some (todays_date - 8), unitPrice := some 4,
     customerID := none, country := some "United Kingdom" },
   { invoiceNo := some "536382", stockCode := some "84406B",
     description := some "CREAM CUPID", quantity := some 8,
     invoiceDate := some (todays_date - 7), unitPrice := some 5,
     customerID := some 13047, country := some "United Kingdom" },
   { invoiceNo := some "536383", stockCode := some "84029G",
     description := some "KNITTED UNION FLAG", quantity := some 600,
     invoiceDate := some (todays_date - 6), unitPrice := some 6,
     customerID := some 13748, country := some "United Kingdom" }]

/-!  Theorems.  Each claim `Cn` of the specification gets one theorem, with
a witness instantiating it on a concrete table when it has hypotheses.  -/

/-- Positional access of a list element is a member (helper for the
witnesses). -/
theorem getD_mem_of_lt {α : Type} (l : List α) (i : ℕ) (d : α)
    (h : i < l.length) : l.getD i d ∈ l := by
  rw [List.getD_eq_getElem l d h]
  exact List.getElem_mem h

/-- C1.  The segment mapping is total and deterministic over all 25
(recency, frequency) score pairs in 1..5 × 1..5: the ordered
`segment_map` substitution applied to the two-character RF code yields
exactly the label of the §4.4 table (`spec_segment`), and no RF code is
left unmapped. -/
theorem segment_mapping_total_matches_spec (r f : ℕ)
    (hr1 : 1 ≤ r) (hr5 : r ≤ 5) (hf1 : 1 ≤ f) (hf5 : f ≤ 5) :
    applySegmentMap (toString r ++ toString f) = spec_segment r f ∧
      spec_segment r f ≠ "" := by
  interval_cases r <;> interval_cases f <;>
    exact ⟨by with_unfolding_all rfl, by with_unfolding_all decide⟩

/-- Witness for C1 at the pair (3, 3). -/
theorem segment_mapping_total_matches_spec_witness :
    (1 ≤ 3 ∧ 3 ≤ 5) ∧
      (applySegmentMap (toString 3 ++ toString 3) = spec_segment 3 3 ∧
        spec_segment 3 3 ≠ "") :=
  ⟨⟨by decide, by decide⟩,
    segment_mapping_total_matches_spec 3 3 (by decide) (by decide) (by decide)
      (by decide)⟩

/-- C5.  Preprocessing performs its steps in exactly the order null-drop,
cancellation-drop, quantity clip, unit-price clip, line-total derivation;
each clip computes its fences from the table it receives, which is the
already-filtered (and for unit price, already quantity-clipped) table. -/
theorem preprocess_step_order (df : List RawRow) :
    data_preprocess df =
      (dropna df,
        (replace_with_thresholds
            (replace_with_thresholds (dropCancelled (dropna df))
              (fun r => r.quantity) (fun v r => { r with quantity := some v }))
            (fun r => r.unitPrice)
            (fun v r => { r with unitPrice := some v })).map addTotalPrice) :=
  rfl

/-- C10.  `data_preprocess` mutates its argument: the caller's frame is
exactly the null-dropped original (the in-place `dropna`), so it no longer
contains any row with a missing cell, while the returned frame is a
different object (see C5 for its value). -/
theorem data_preprocess_mutates_argument (df : List RawRow) :
    (data_preprocess df).1 = dropna df ∧
      ∀ r ∈ (data_preprocess df).1, isComplete r = true :=
  ⟨rfl, fun _ hr => (List.mem_filter.mp hr).2⟩

/-- Witness for C10 on the concrete raw table. -/
theorem data_preprocess_mutates_argument_witness :
    (data_preprocess rawTable).1 = dropna rawTable ∧
      isComplete ((data_preprocess rawTable).1.getD 0 defaultRaw) = true :=
  ⟨(data_preprocess_mutates_argument rawTable).1,
    (data_preprocess_mutates_argument rawTable).2 _
      (getD_mem_of_lt _ 0 _ (by with_unfolding_all decide))⟩

/-- A row of `replace_with_thresholds df get set` keeps the invoice number
of the row of `df` it came from, provided `set` does not touch invoice
numbers. -/
theorem invoiceNo_of_replace {df : List RawRow} {get : RawRow → Option ℚ}
    {set : ℚ → RawRow → RawRow} {r : RawRow}
    (hr : r ∈ replace_with_thresholds df get set)
    (hset : ∀ v r1, (set v r1).invoiceNo = r1.invoiceNo) :
    ∃ r0 ∈ df, r.invoiceNo = r0.invoiceNo := by
  simp only [replace_with_thresholds, List.map_map, List.mem_map] at hr
  obtain ⟨r0, hr0, rfl⟩ := hr
  refine ⟨r0, hr0, ?_⟩
  simp only [Function.comp_apply]
  cases h1 : get r0 with
  | none =>
    simp only [h1]
  | some v =>
    by_cases hv : v < (find_thresholds df get).1
    · simp only [h1, if_pos hv]
      cases h2 : get (set (find_thresholds df get).1 r0) with
      | none => simp [hset]
      | some w =>
        by_cases hw : (find_thresholds df get).2 < w
        · simp only [h2, if_pos hw, hset]
        · simp only [h2, if_neg hw, hset]
    · simp only [h1, if_neg hv]
      by_cases hw : (find_thresholds df get).2 < v
      · simp only [h1, if_pos hw, hset]
      · simp only [h1, if_neg hw]

/-- C9.  After preprocessing no returned row's invoice number contains the
character "C"; and the cancellation filter itself never drops a row whose
invoice number is missing. -/
theorem no_cancellation_rows_after_preprocess (df : List RawRow) :
    (∀ r ∈ (data_preprocess df).2, cancelMatch r.invoiceNo = false) ∧
      ∀ (rows : List RawRow) (r : RawRow),
        r ∈ rows → r.invoiceNo = none → r ∈ dropCancelled rows := by
  constructor
  · intro r hr
    simp only [data_preprocess, List.mem_map] at hr
    obtain ⟨r4, hr4, rfl⟩ := hr
    obtain ⟨r3, hr3, h43⟩ := invoiceNo_of_replace hr4 (fun _ _ => rfl)
    obtain ⟨r2, hr2, h32⟩ := invoiceNo_of_replace hr3 (fun _ _ => rfl)
    have h2 := (List.mem_filter.mp hr2).2
    simp only [Bool.not_eq_true, decide_eq_false_iff_not] at h2
    have : (addTotalPrice r4).invoiceNo = r4.invoiceNo := rfl
    rw [this, h43, h32]
    simpa using h2
  · intro rows r hmem hnone
    refine List.mem_filter.mpr ⟨hmem, ?_⟩
    rw [hnone]
    rfl

/-- Witness for C9 on the concrete raw table and a one-row table whose only
invoice number is missing. -/
theorem no_cancellation_rows_after_preprocess_witness :
    cancelMatch (((data_preprocess rawTable).2.getD 0 defaultClean).invoiceNo)
        = false ∧
      defaultRaw ∈ dropCancelled [defaultRaw] :=
  ⟨(no_cancellation_rows_after_preprocess rawTable).1 _
      (getD_mem_of_lt _ 0 _ (by with_unfolding_all decide)),
    (no_cancellation_rows_after_preprocess rawTable).2 [defaultRaw] defaultRaw
      (by decide) rfl⟩

/-- C2 (amended).  The segmentation stage fails (returns no scored table)
exactly when one of the three series passed to `pd.qcut` — Recency, the
rank-transformed Frequency, Monetary — produces non-unique interpolated
quintile edges. -/
theorem qcut_failure_iff_duplicate_edges (df : List CleanRow) :
    create_segment_dataframe df = none ↔
      ¬(qcutEdges (recencyValues df)).Nodup ∨
        ¬(qcutEdges (rankFirst (frequencyValues df))).Nodup ∨
        ¬(qcutEdges (monetaryValues df)).Nodup := by
  simp only [create_segment_dataframe, qcut]
  split_ifs <;> simp_all

/-- C2 (counterexample).  On `testTableA` the Frequency metric has a single
distinct value — fewer than 5 — among the aggregated customers, yet the
segmentation stage succeeds and produces a scored table. -/
theorem fewer_than_five_distinct_still_bins :
    ((rfmAggregate testTableA).map (fun a => a.frequency)).dedup.length < 5 ∧
      (create_segment_dataframe testTableA).isSome = true := by
  with_unfolding_all decide

/-- C6.  Every row of a successfully produced segment table has positive
Monetary: the aggregation output is filtered by `Monetary > 0` before
scoring and the scored rows carry the filtered values. -/
theorem monetary_positive_invariant (df : List CleanRow) (out : List SegRow)
    (h : create_segment_dataframe df = some out) :
    ∀ s ∈ out, 0 < s.monetary := by
  intro s hs
  unfold create_segment_dataframe at h
  split at h
  · cases h
    simp only [List.mem_map, List.mem_range] at hs
    obtain ⟨i, hi, rfl⟩ := hs
    simp only [scoreRow]
    rw [List.getD_eq_getElem (rfmKept df) defaultRfm hi]
    have hmem : (rfmKept df)[i] ∈ rfmKept df := List.getElem_mem hi
    have := (List.mem_filter.mp hmem).2
    exact of_decide_eq_true this
  · cases h

/-- Counting a key in a duplicate-free list gives 1 or 0 according to
membership. -/
theorem countP_key_of_nodup (l : List ℚ) (hl : l.Nodup) (c : ℚ) :
    l.countP (fun k => decide (k = c)) = if c ∈ l then 1 else 0 := by
  induction l with
  | nil => simp
  | cons a l ih =>
    rw [List.nodup_cons] at hl
    rw [List.countP_cons, ih hl.2]
    by_cases hac : a = c
    · subst hac
      have : a ∉ l := hl.1
      simp [this]
    · simp [List.mem_cons, hac, Ne.symm hac]

/-- The group keys are duplicate-free. -/
theorem customerKeys_nodup (df : List CleanRow) : (customerKeys df).Nodup :=
  (List.perm_insertionSort (· ≤ ·) _).symm.nodup (List.nodup_dedup _)

/-- A rational is a group key exactly when some row carries it as customer
id. -/
theorem mem_customerKeys (df : List CleanRow) (c : ℚ) :
    c ∈ customerKeys df ↔ ∃ r ∈ df, r.customerID = some c := by
  unfold customerKeys
  rw [(List.perm_insertionSort (· ≤ ·) _).mem_iff, List.mem_dedup,
    List.mem_filterMap]

/-- C3.  Aggregation produces exactly one record per distinct customer id;
each record carries Recency `(todays_date − max invoice date).days`,
Frequency the number of distinct invoice numbers, Monetary the sum of the
line totals of that customer's rows; and in the final segmented table the
record is keyed by the customer id cast (truncated) to integer. -/
theorem aggregate_one_record_per_customer (df : List CleanRow)
    (hdf : ∀ r ∈ df, cleanComplete r = true) :
    (∀ c : ℚ,
        ((rfmAggregate df).countP (fun a => decide (a.customerID = c)) = 1 ↔
          ∃ r ∈ df, r.customerID = some c) ∧
        ((rfmAggregate df).countP (fun a => decide (a.customerID = c)) = 0 ↔
          ¬∃ r ∈ df, r.customerID = some c)) ∧
      (∀ a ∈ rfmAggregate df,
        (∃ d, ((groupRows df a.customerID).filterMap
              (fun r => r.invoiceDate)).max? = some d ∧
            a.recency = ⌊todays_date - d⌋) ∧
        a.frequency = ((groupRows df a.customerID).filterMap
            (fun r => r.invoiceNo)).dedup.length ∧
        a.monetary = ((groupRows df a.customerID).filterMap
            (fun r => r.totalPrice)).sum) ∧
      ∀ out, create_segment_dataframe df = some out →
        out.map (fun s => s.customerID) =
          (rfmKept df).map (fun a => ratToInt a.customerID) := by
  have hcount : ∀ c : ℚ,
      (rfmAggregate df).countP (fun a => decide (a.customerID = c)) =
        if c ∈ customerKeys df then 1 else 0 := by
    intro c
    unfold rfmAggregate
    rw [List.countP_map]
    rw [show ((fun a : RfmRec => decide (a.customerID = c)) ∘ fun k =>
        ({ customerID := k, recency := recencyOf df k,
           frequency := frequencyOf df k,
           monetary := monetaryOf df k } : RfmRec)) =
        fun k => decide (k = c) from rfl]
    exact countP_key_of_nodup _ (customerKeys_nodup df) c
  refine ⟨fun c => ?_, fun a ha => ?_, fun out hout => ?_⟩
  · rw [hcount c, ← mem_customerKeys df c]
    by_cases hc : c ∈ customerKeys df <;> simp [hc]
  · unfold rfmAggregate at ha
    rw [List.mem_map] at ha
    obtain ⟨c, hc, rfl⟩ := ha
    refine ⟨?_, rfl, rfl⟩
    obtain ⟨r, hr, hrc⟩ := (mem_customerKeys df c).mp hc
    have hrg : r ∈ groupRows df c :=
      List.mem_filter.mpr ⟨hr, by rw [hrc]; simp⟩
    have hcomplete := hdf r hr
    have hdate : r.invoiceDate.isSome = true := by
      unfold cleanComplete at hcomplete
      simp only [Bool.and_eq_true] at hcomplete
      exact hcomplete.1.1.1.1.2
    obtain ⟨d0, hd0⟩ := Option.isSome_iff_exists.mp hdate
    have hmemdates : d0 ∈ (groupRows df c).filterMap (fun r => r.invoiceDate) :=
      List.mem_filterMap.mpr ⟨r, hrg, hd0⟩
    have hne : (groupRows df c).filterMap (fun r => r.invoiceDate) ≠ [] := by
      intro hnil
      rw [hnil] at hmemdates
      exact absurd hmemdates (List.not_mem_nil d0)
    cases o : ((groupRows df c).filterMap (fun r => r.invoiceDate)).max? with
    | none => exact absurd (List.max?_eq_none_iff.mp o) hne
    | some d =>
      refine ⟨d, rfl, ?_⟩
      show recencyOf df c = _
      unfold recencyOf
      rw [o]
      rfl
  · unfold create_segment_dataframe at hout
    split at hout
    · cases hout
      refine List.ext_getElem (by simp) ?_
      intro i h1 h2
      have hi : i < (rfmKept df).length := by
        simpa using h2
      simp only [List.getElem_map, List.getElem_range, scoreRow]
      rw [List.getD_eq_getElem (rfmKept df) defaultRfm hi]
    · cases hout

/-- Witness for C3 on `testTableA`. -/
theorem aggregate_one_record_per_customer_witness :
    (∀ r ∈ testTableA, cleanComplete r = true) ∧
      ((rfmAggregate testTableA).countP
          (fun a => decide (a.customerID = 3)) = 1 ↔
        ∃ r ∈ testTableA, r.customerID = some 3) :=
  have h : ∀ r ∈ testTableA, cleanComplete r = true := by
    with_unfolding_all decide
  ⟨h, ((aggregate_one_record_per_customer testTableA h).1 3).1⟩

/-- Witness for C6 on `testTableA`. -/
theorem monetary_positive_invariant_witness :
    0 < (segOutA.getD 0 defaultSeg).monetary :=
  monetary_positive_invariant testTableA segOutA (by with_unfolding_all rfl) _
    (getD_mem_of_lt _ 0 _ (by with_unfolding_all decide))

/-- Unfolding equation of `quantileSorted` (helper). -/
theorem quantileSorted_def (s : List ℚ) (q : ℚ) :
    quantileSorted s q =
      if (⌊q * ((s.length : ℚ) - 1)⌋).toNat + 1 < s.length then
        s.getD (⌊q * ((s.length : ℚ) - 1)⌋).toNat 0 +
          (q * ((s.length : ℚ) - 1) - ((⌊q * ((s.length : ℚ) - 1)⌋).toNat : ℚ)) *
            (s.getD ((⌊q * ((s.length : ℚ) - 1)⌋).toNat + 1) 0 -
              s.getD (⌊q * ((s.length : ℚ) - 1)⌋).toNat 0)
      else s.getD (⌊q * ((s.length : ℚ) - 1)⌋).toNat 0 := rfl

/-- In a sorted list an earlier element is at most a later one (helper). -/
theorem sorted_getElem_le {s : List ℚ} (hs : List.Sorted (· ≤ ·) s)
    {i j : ℕ} (hi : i < s.length) (hj : j < s.length) (hij : i ≤ j) :
    s[i] ≤ s[j] := by
  rcases Nat.eq_or_lt_of_le hij with heq | hlt
  · subst heq
    exact le_refl _
  · exact List.pairwise_iff_getElem.mp hs i j hi hj hlt

/-- The linear-interpolation quantile of a sorted series is monotone in the
quantile point (helper; this is what makes `lowLimit ≤ upLimit`). -/
theorem quantileSorted_mono {s : List ℚ} (hs : List.Sorted (· ≤ ·) s)
    (hne : s ≠ []) {qa qb : ℚ} (h0 : 0 ≤ qa) (hab : qa ≤ qb) (hb1 : qb ≤ 1) :
    quantileSorted s qa ≤ quantileSorted s qb := by
  have hn : 0 < s.length := List.length_pos.mpr hne
  have hcast : (1 : ℚ) ≤ (s.length : ℚ) := by exact_mod_cast hn
  have hnn : (0 : ℚ) ≤ (s.length : ℚ) - 1 := by linarith
  have hpa : 0 ≤ qa * ((s.length : ℚ) - 1) := mul_nonneg h0 hnn
  have hpb : 0 ≤ qb * ((s.length : ℚ) - 1) := mul_nonneg (h0.trans hab) hnn
  have hpab : qa * ((s.length : ℚ) - 1) ≤ qb * ((s.length : ℚ) - 1) :=
    mul_le_mul_of_nonneg_right hab hnn
  have hpbn : qb * ((s.length : ℚ) - 1) ≤ (s.length : ℚ) - 1 := by
    calc qb * ((s.length : ℚ) - 1) ≤ 1 * ((s.length : ℚ) - 1) :=
          mul_le_mul_of_nonneg_right hb1 hnn
    _ = (s.length : ℚ) - 1 := one_mul _
  rw [quantileSorted_def s qa, quantileSorted_def s qb]
  obtain ⟨ia, hiaE⟩ : ∃ k, (⌊qa * ((s.length : ℚ) - 1)⌋).toNat = k := ⟨_, rfl⟩
  obtain ⟨ib, hibE⟩ : ∃ k, (⌊qb * ((s.length : ℚ) - 1)⌋).toNat = k := ⟨_, rfl⟩
  rw [hiaE, hibE]
  have haZ : ((ia : ℤ)) = ⌊qa * ((s.length : ℚ) - 1)⌋ := by
    rw [← hiaE]
    exact Int.toNat_of_nonneg (Int.floor_nonneg.mpr hpa)
  have hbZ : ((ib : ℤ)) = ⌊qb * ((s.length : ℚ) - 1)⌋ := by
    rw [← hibE]
    exact Int.toNat_of_nonneg (Int.floor_nonneg.mpr hpb)
  have hfa1 : (ia : ℚ) ≤ qa * ((s.length : ℚ) - 1) := by
    have h9 := Int.floor_le (qa * ((s.length : ℚ) - 1))
    rw [← haZ] at h9
    exact_mod_cast h9
  have hfa2 : qa * ((s.length : ℚ) - 1) < (ia : ℚ) + 1 := by
    have h9 := Int.lt_floor_add_one (qa * ((s.length : ℚ) - 1))
    rw [← haZ] at h9
    exact_mod_cast h9
  have hfb1 : (ib : ℚ) ≤ qb * ((s.length : ℚ) - 1) := by
    have h9 := Int.floor_le (qb * ((s.length : ℚ) - 1))
    rw [← hbZ] at h9
    exact_mod_cast h9
  have hfb2 : qb * ((s.length : ℚ) - 1) < (ib : ℚ) + 1 := by
    have h9 := Int.lt_floor_add_one (qb * ((s.length : ℚ) - 1))
    rw [← hbZ] at h9
    exact_mod_cast h9
  have hfl : ⌊qa * ((s.length : ℚ) - 1)⌋ ≤ ⌊qb * ((s.length : ℚ) - 1)⌋ :=
    Int.floor_le_floor hpab
  have hbd : ⌊qb * ((s.length : ℚ) - 1)⌋ ≤ (s.length : ℤ) - 1 := by
    have h6 : qb * ((s.length : ℚ) - 1) ≤ (((s.length : ℤ) - 1 : ℤ) : ℚ) := by
      push_cast
      linarith
    have h7 := Int.floor_le_floor h6
    rw [Int.floor_intCast] at h7
    exact h7
  have hiab : ia ≤ ib := by omega
  have hian : ia < s.length := by omega
  have hibn : ib < s.length := by omega
  split_ifs with h1 h2 h2
  · rcases Nat.eq_or_lt_of_le hiab with heq | hlt
    · subst heq
      rw [List.getD_eq_getElem s 0 hian, List.getD_eq_getElem s 0 h1]
      have hΔ : s[ia] ≤ s[ia + 1] := sorted_getElem_le hs hian h1 (by omega)
      nlinarith [mul_nonneg (sub_nonneg.mpr hpab) (sub_nonneg.mpr hΔ)]
    · rw [List.getD_eq_getElem s 0 hian, List.getD_eq_getElem s 0 h1,
        List.getD_eq_getElem s 0 hibn, List.getD_eq_getElem s 0 h2]
      have hΔa : s[ia] ≤ s[ia + 1] := sorted_getElem_le hs hian h1 (by omega)
      have hΔb : s[ib] ≤ s[ib + 1] := sorted_getElem_le hs hibn h2 (by omega)
      have e1 : s[ia] + (qa * ((s.length : ℚ) - 1) - (ia : ℚ)) *
          (s[ia + 1] - s[ia]) ≤ s[ia + 1] := by
        nlinarith [mul_nonneg (sub_nonneg.mpr (by linarith : (0 : ℚ) ≤ 1 -
          (qa * ((s.length : ℚ) - 1) - (ia : ℚ)))) (sub_nonneg.mpr hΔa)]
      have e2 : s[ia + 1] ≤ s[ib] := sorted_getElem_le hs h1 hibn (by omega)
      have e3 : s[ib] ≤ s[ib] + (qb * ((s.length : ℚ) - 1) - (ib : ℚ)) *
          (s[ib + 1] - s[ib]) := by
        nlinarith [mul_nonneg (sub_nonneg.mpr hfb1) (sub_nonneg.mpr hΔb)]
      linarith
  · rcases Nat.eq_or_lt_of_le hiab with heq | hlt
    · omega
    · rw [List.getD_eq_getElem s 0 hian, List.getD_eq_getElem s 0 h1,
        List.getD_eq_getElem s 0 hibn]
      have hΔa : s[ia] ≤ s[ia + 1] := sorted_getElem_le hs hian h1 (by omega)
      have e1 : s[ia] + (qa * ((s.length : ℚ) - 1) - (ia : ℚ)) *
          (s[ia + 1] - s[ia]) ≤ s[ia + 1] := by
        nlinarith [mul_nonneg (sub_nonneg.mpr (by linarith : (0 : ℚ) ≤ 1 -
          (qa * ((s.length : ℚ) - 1) - (ia : ℚ)))) (sub_nonneg.mpr hΔa)]
      have e2 : s[ia + 1] ≤ s[ib] := sorted_getElem_le hs h1 hibn (by omega)
      linarith
  · omega
  · rw [List.getD_eq_getElem s 0 hian, List.getD_eq_getElem s 0 hibn]
    exact sorted_getElem_le hs hian hibn hiab

/-- `Series.quantile` is monotone in the quantile point. -/
theorem quantile_mono (xs : List ℚ) (hne : xs ≠ []) {qa qb : ℚ}
    (h0 : 0 ≤ qa) (hab : qa ≤ qb) (hb1 : qb ≤ 1) :
    quantile xs qa ≤ quantile xs qb := by
  apply quantileSorted_mono (List.sorted_insertionSort (· ≤ ·) xs) _ h0 hab hb1
  intro hnil
  have h9 := List.length_insertionSort (· ≤ ·) xs
  rw [hnil] at h9
  simp only [List.length_nil] at h9
  exact hne (List.length_eq_zero.mp h9.symm)

/-- The Tukey fences are in order: `lowLimit ≤ upLimit`. -/
theorem find_thresholds_fst_le_snd (df : List RawRow)
    (get : RawRow → Option ℚ) (hne : df.filterMap get ≠ []) :
    (find_thresholds df get).1 ≤ (find_thresholds df get).2 := by
  have h13 : quantile (df.filterMap get) (1 / 4) ≤
      quantile (df.filterMap get) (3 / 4) :=
    quantile_mono _ hne (by norm_num) (by norm_num) (by norm_num)
  show quantile (df.filterMap get) (1 / 4) -
      3 / 2 * (quantile (df.filterMap get) (3 / 4) -
        quantile (df.filterMap get) (1 / 4)) ≤
    quantile (df.filterMap get) (3 / 4) +
      3 / 2 * (quantile (df.filterMap get) (3 / 4) -
        quantile (df.filterMap get) (1 / 4))
  linarith

/-- The two masked assignments of `replace_with_thresholds` clamp the
column: positionally the new cell is `max low (min up old)`, and every
non-null cell of the result lies within the fences (helper used for both
columns). -/
theorem replace_with_thresholds_clamps {df : List RawRow}
    {get : RawRow → Option ℚ} {set : ℚ → RawRow → RawRow}
    (hgs : ∀ v r, get (set v r) = some v)
    (hne : df.filterMap get ≠ []) :
    (∀ (i : ℕ) (d : RawRow), i < df.length →
      get ((replace_with_thresholds df get set).getD i d) =
        (get (df.getD i d)).map (fun v =>
          max (find_thresholds df get).1
            (min (find_thresholds df get).2 v))) ∧
    ∀ r ∈ replace_with_thresholds df get set, ∀ v, get r = some v →
      (find_thresholds df get).1 ≤ v ∧ v ≤ (find_thresholds df get).2 := by
  have hlohi := find_thresholds_fst_le_snd df get hne
  have hpoint : ∀ (i : ℕ) (d : RawRow), i < df.length →
      get ((replace_with_thresholds df get set).getD i d) =
        (get (df.getD i d)).map (fun v =>
          max (find_thresholds df get).1
            (min (find_thresholds df get).2 v)) := by
    intro i d hi
    have hlen : i < (replace_with_thresholds df get set).length := by
      unfold replace_with_thresholds
      simp only [List.length_map]
      exact hi
    rw [List.getD_eq_getElem _ d hlen, List.getD_eq_getElem df d hi]
    unfold replace_with_thresholds
    simp only [List.map_map, List.getElem_map, Function.comp_apply]
    cases h : get df[i] with
    | none =>
      simp only [h]
      rfl
    | some v =>
      simp only [h]
      by_cases hv : v < (find_thresholds df get).1
      · rw [if_pos hv]
        simp only [hgs]
        rw [if_neg (by linarith : ¬(find_thresholds df get).2 <
          (find_thresholds df get).1)]
        simp only [hgs, Option.map_some']
        congr 1
        beta_reduce
        rw [min_eq_right (by linarith : v ≤ (find_thresholds df get).2),
          max_eq_left (le_of_lt hv)]
      · rw [if_neg hv]
        simp only [h]
        by_cases hw : (find_thresholds df get).2 < v
        · rw [if_pos hw]
          simp only [hgs, Option.map_some']
          congr 1
          beta_reduce
          rw [min_eq_left (le_of_lt hw), max_eq_right hlohi]
        · rw [if_neg hw]
          simp only [h, Option.map_some']
          congr 1
          beta_reduce
          rw [min_eq_right (not_lt.mp hw), max_eq_right (not_lt.mp hv)]
  refine ⟨hpoint, fun r hr v hv => ?_⟩
  obtain ⟨i, hi, hieq⟩ := List.mem_iff_getElem.mp hr
  have hilen : i < df.length := by
    have h9 : (replace_with_thresholds df get set).length = df.length := by
      unfold replace_with_thresholds
      simp only [List.map_map, List.length_map]
    omega
  have h8 := hpoint i defaultRaw hilen
  rw [List.getD_eq_getElem _ defaultRaw (by omega :
      i < (replace_with_thresholds df get set).length), hieq, hv] at h8
  cases h : get (df.getD i defaultRaw) with
  | none =>
    rw [h] at h8
    exact Option.noConfusion h8
  | some w =>
    rw [h] at h8
    simp only [Option.map_some', Option.some_inj] at h8
    constructor
    · rw [h8]
      exact le_max_left _ _
    · rw [h8]
      exact max_le hlohi (min_le_left _ _)

/-- C4.  Outlier handling computes `lowLimit = Q1 − 1.5(Q3 − Q1)` and
`upLimit = Q3 + 1.5(Q3 − Q1)` per column and clamps rather than removes:
positionally every cell becomes `max lowLimit (min upLimit old)`, and every
clipped quantity and unit price lies within `[lowLimit, upLimit]` of the
fences computed before clipping. -/
theorem outlier_clipping_bounds (df : List RawRow) :
    (df.filterMap (fun r => r.quantity) ≠ [] →
      (∀ (i : ℕ) (d : RawRow), i < df.length →
        ((replace_with_thresholds df (fun r => r.quantity)
            (fun v r => { r with quantity := some v })).getD i d).quantity =
          ((df.getD i d).quantity).map (fun v =>
            max (find_thresholds df (fun r => r.quantity)).1
              (min (find_thresholds df (fun r => r.quantity)).2 v))) ∧
      ∀ r ∈ replace_with_thresholds df (fun r => r.quantity)
          (fun v r => { r with quantity := some v }),
        ∀ v, r.quantity = some v →
          (find_thresholds df (fun r => r.quantity)).1 ≤ v ∧
            v ≤ (find_thresholds df (fun r => r.quantity)).2) ∧
    (df.filterMap (fun r => r.unitPrice) ≠ [] →
      (∀ (i : ℕ) (d : RawRow), i < df.length →
        ((replace_with_thresholds df (fun r => r.unitPrice)
            (fun v r => { r with unitPrice := some v })).getD i d).unitPrice =
          ((df.getD i d).unitPrice).map (fun v =>
            max (find_thresholds df (fun r => r.unitPrice)).1
              (min (find_thresholds df (fun r => r.unitPrice)).2 v))) ∧
      ∀ r ∈ replace_with_thresholds df (fun r => r.unitPrice)
          (fun v r => { r with unitPrice := some v }),
        ∀ v, r.unitPrice = some v →
          (find_thresholds df (fun r => r.unitPrice)).1 ≤ v ∧
            v ≤ (find_thresholds df (fun r => r.unitPrice)).2) :=
  ⟨fun hne => replace_with_thresholds_clamps (fun _ _ => rfl) hne,
    fun hne => replace_with_thresholds_clamps (fun _ _ => rfl) hne⟩

/-- Witness for C4 on the quantity column of the concrete raw table (the
row with the outlier quantity 600). -/
theorem outlier_clipping_bounds_witness :
    rawTable.filterMap (fun r => r.quantity) ≠ [] ∧
      ((replace_with_thresholds rawTable (fun r => r.quantity)
          (fun v r => { r with quantity := some v })).getD 4
            defaultRaw).quantity =
        ((rawTable.getD 4 defaultRaw).quantity).map (fun v =>
          max (find_thresholds rawTable (fun r => r.quantity)).1
            (min (find_thresholds rawTable (fun r => r.quantity)).2 v)) :=
  have hne : rawTable.filterMap (fun r => r.quantity) ≠ [] := by
    with_unfolding_all decide
  ⟨hne, ((outlier_clipping_bounds rawTable).1 hne).1 4 defaultRaw
    (by with_unfolding_all decide)⟩

/-- Positional value of a mapped list (helper). -/
theorem getD_map_eq {α β : Type} (l : List α) (f : α → β) (i : ℕ)
    (hi : i < l.length) (d : β) (d2 : α) :
    (l.map f).getD i d = f (l.getD i d2) := by
  rw [List.getD_eq_getElem (l.map f) d (by simpa using hi),
    List.getD_eq_getElem l d2 hi, List.getElem_map]

/-- Positional value of `rankFirst` (helper). -/
theorem rankFirst_getD (xs : List ℚ) (i : ℕ) (hi : i < xs.length) :
    (rankFirst xs).getD i 0 = ((rankAt xs i : ℕ) : ℚ) := by
  unfold rankFirst
  have h9 : (List.range xs.length).getD i 0 = i := by
    rw [List.getD_eq_getElem _ _ (by simpa using hi), List.getElem_range]
  rw [getD_map_eq (List.range xs.length) _ i (by simpa using hi) 0 0, h9]

/-- Length of `rankFirst` (helper). -/
theorem rankFirst_length (xs : List ℚ) : (rankFirst xs).length = xs.length := by
  unfold rankFirst
  simp

/-- A bin index is at most 4 (helper). -/
theorem binIndex_le_four (xs : List ℚ) (v : ℚ) : binIndex xs v ≤ 4 := by
  unfold binIndex
  calc (innerEdges xs).countP (fun e => decide (e < v)) ≤
      (innerEdges xs).length := List.countP_le_length _
  _ ≤ 4 := by
      unfold innerEdges
      exact List.length_take_le _ _

/-- The bin index is monotone in the value (helper). -/
theorem binIndex_mono (xs : List ℚ) {v w : ℚ} (hvw : v ≤ w) :
    binIndex xs v ≤ binIndex xs w := by
  unfold binIndex
  refine List.countP_mono_left ?_
  intro e _ he
  simp only [decide_eq_true_eq] at he ⊢
  exact lt_of_lt_of_le he hvw

/-- Read-off of the inverted Recency label list (helper). -/
theorem label_inv_getD (c : ℕ) (hc : c ≤ 4) :
    List.getD [5, 4, 3, 2, 1] c 0 = 5 - c := by
  interval_cases c <;> rfl

/-- Read-off of the direct Frequency/Monetary label list (helper). -/
theorem label_dir_getD (c : ℕ) (hc : c ≤ 4) :
    List.getD [1, 2, 3, 4, 5] c 0 = c + 1 := by
  interval_cases c <;> rfl

/-- Splitting a `≤`-count into the `<`-count and the `=`-count (helper). -/
theorem countP_lt_add_countP_eq (xs : List ℚ) (a : ℚ) :
    xs.countP (fun y => decide (y < a)) + xs.countP (fun y => decide (y = a)) =
      xs.countP (fun y => decide (y ≤ a)) := by
  induction xs with
  | nil => rfl
  | cons b l ih =>
    simp only [List.countP_cons]
    rcases lt_trichotomy b a with h | h | h
    · rw [if_pos (decide_eq_true h),
        if_neg (by simp only [decide_eq_true_eq]; exact ne_of_lt h),
        if_pos (decide_eq_true (le_of_lt h))]
      omega
    · subst h
      rw [if_neg (by simp only [decide_eq_true_eq]; exact lt_irrefl b),
        if_pos (decide_eq_true rfl), if_pos (decide_eq_true (le_refl b))]
      omega
    · rw [if_neg (by simp only [decide_eq_true_eq]; exact not_lt.mpr (le_of_lt h)),
        if_neg (by simp only [decide_eq_true_eq]; exact ne_of_gt h),
        if_neg (by simp only [decide_eq_true_eq]; exact not_le.mpr h)]
      omega

/-- The prefix up to a position contains at least one copy of the value at
that position (helper). -/
theorem take_countP_eq_pos (xs : List ℚ) (j : ℕ) (hj : j < xs.length) :
    1 ≤ (xs.take (j + 1)).countP (fun y => decide (y = xs.getD j 0)) := by
  have hb1 : j < (xs.take (j + 1)).length := by
    simp only [List.length_take]
    omega
  have hval : (xs.take (j + 1))[j] = xs.getD j 0 := by
    rw [List.getElem_take, List.getD_eq_getElem xs 0 hj]
  have h2 : 0 < (xs.take (j + 1)).countP (fun y => decide (y = xs.getD j 0)) :=
    List.countP_pos_iff.mpr ⟨(xs.take (j + 1))[j], List.getElem_mem hb1,
      by rw [hval]; simp⟩
  omega

/-- `rank(method="first")` respects strict value order (helper). -/
theorem rankAt_lt_of_lt {xs : List ℚ} {i j : ℕ} (hi : i < xs.length)
    (hj : j < xs.length) (hx : xs.getD i 0 < xs.getD j 0) :
    rankAt xs i < rankAt xs j := by
  unfold rankAt
  have hBi : (xs.take (i + 1)).countP (fun y => decide (y = xs.getD i 0)) ≤
      xs.countP (fun y => decide (y = xs.getD i 0)) :=
    List.Sublist.countP_le _ (List.take_sublist _ _)
  have hsum := countP_lt_add_countP_eq xs (xs.getD i 0)
  have hmono : xs.countP (fun y => decide (y ≤ xs.getD i 0)) ≤
      xs.countP (fun y => decide (y < xs.getD j 0)) := by
    refine List.countP_mono_left ?_
    intro y _ hy
    simp only [decide_eq_true_eq] at hy ⊢
    exact lt_of_le_of_lt hy hx
  have hBj := take_countP_eq_pos xs j hj
  omega

/-- `rank(method="first")` breaks value ties by position (helper). -/
theorem rankAt_lt_of_eq {xs : List ℚ} {i j : ℕ} (hij : i < j)
    (hj : j < xs.length) (hx : xs.getD i 0 = xs.getD j 0) :
    rankAt xs i < rankAt xs j := by
  unfold rankAt
  rw [hx]
  have hsplit : xs.take (j + 1) =
      xs.take (i + 1) ++ (xs.drop (i + 1)).take (j - i) := by
    rw [← List.take_add]
    congr 1
    omega
  rw [hsplit, List.countP_append]
  have hb1 : j - (i + 1) < ((xs.drop (i + 1)).take (j - i)).length := by
    simp only [List.length_take, List.length_drop]
    omega
  have hval : ((xs.drop (i + 1)).take (j - i))[j - (i + 1)] = xs.getD j 0 := by
    rw [List.getElem_take, List.getElem_drop, List.getD_eq_getElem xs 0 hj]
    congr 1
    omega
  have hmid : 0 < ((xs.drop (i + 1)).take (j - i)).countP
      (fun y => decide (y = xs.getD j 0)) :=
    List.countP_pos_iff.mpr ⟨((xs.drop (i + 1)).take (j - i))[j - (i + 1)],
      List.getElem_mem hb1, by rw [hval]; simp⟩
  omega

/-- Every rank is at least 1 (helper). -/
theorem rankAt_pos {xs : List ℚ} {i : ℕ} (hi : i < xs.length) :
    1 ≤ rankAt xs i := by
  unfold rankAt
  have := take_countP_eq_pos xs i hi
  omega

/-- Every rank is at most the length of the series (helper). -/
theorem rankAt_le_length {xs : List ℚ} {i : ℕ} (hi : i < xs.length) :
    rankAt xs i ≤ xs.length := by
  unfold rankAt
  have hBi : (xs.take (i + 1)).countP (fun y => decide (y = xs.getD i 0)) ≤
      xs.countP (fun y => decide (y = xs.getD i 0)) :=
    List.Sublist.countP_le _ (List.take_sublist _ _)
  have hsum := countP_lt_add_countP_eq xs (xs.getD i 0)
  have hle : xs.countP (fun y => decide (y ≤ xs.getD i 0)) ≤ xs.length :=
    List.countP_le_length _
  omega

/-- A successful `pd.qcut` means unique edges and bin labelling (helper). -/
theorem qcut_elim {xs : List ℚ} {labels : List ℕ} {out : List ℕ}
    (h : qcut xs labels = some out) :
    (qcutEdges xs).Nodup ∧
      out = xs.map (fun v => labels.getD (binIndex xs v) 0) := by
  unfold qcut at h
  split_ifs at h with hnd
  exact ⟨hnd, (Option.some_inj.mp h).symm⟩

/-- A successful segmentation run decomposes into three successful `qcut`
calls and a positional row build (helper). -/
theorem create_segment_elim {df : List CleanRow} {out : List SegRow}
    (h : create_segment_dataframe df = some out) :
    ∃ rs fs ms,
      qcut (recencyValues df) [5, 4, 3, 2, 1] = some rs ∧
        qcut (rankFirst (frequencyValues df)) [1, 2, 3, 4, 5] = some fs ∧
        qcut (monetaryValues df) [1, 2, 3, 4, 5] = some ms ∧
        out = (List.range (rfmKept df).length).map (fun i =>
          scoreRow ((rfmKept df).getD i defaultRfm)
            (rs.getD i 0) (fs.getD i 0) (ms.getD i 0)) := by
  unfold create_segment_dataframe at h
  cases hr : qcut (recencyValues df) [5, 4, 3, 2, 1] with
  | none =>
    rw [hr] at h
    exact Option.noConfusion h
  | some rs =>
    cases hf : qcut (rankFirst (frequencyValues df)) [1, 2, 3, 4, 5] with
    | none =>
      rw [hr, hf] at h
      exact Option.noConfusion h
    | some fs =>
      cases hm : qcut (monetaryValues df) [1, 2, 3, 4, 5] with
      | none =>
        rw [hr, hf, hm] at h
        exact Option.noConfusion h
      | some ms =>
        rw [hr, hf, hm] at h
        exact ⟨rs, fs, ms, rfl, rfl, rfl, (Option.some_inj.mp h).symm⟩

/-- C8.  RecencyScore is inverted while FrequencyScore and MonetaryScore
are direct, all labels lie in 1..5; the RF code is the concatenation of the
recency digit and the frequency digit, and the segment is a function of
those two digits only (MonetaryScore has no effect on it). -/
theorem score_directions_and_rf_code (df : List CleanRow) (out : List SegRow)
    (h : create_segment_dataframe df = some out) :
    (∀ s ∈ out,
      (1 ≤ s.recencyScore ∧ s.recencyScore ≤ 5) ∧
      (1 ≤ s.frequencyScore ∧ s.frequencyScore ≤ 5) ∧
      (1 ≤ s.monetaryScore ∧ s.monetaryScore ≤ 5) ∧
      s.rfScore = toString s.recencyScore ++ toString s.frequencyScore ∧
      s.customerSegment =
        applySegmentMap
          (toString s.recencyScore ++ toString s.frequencyScore)) ∧
    ∀ (i j : ℕ) (hi : i < out.length) (hj : j < out.length),
      ((out.get ⟨i, hi⟩).recency ≤ (out.get ⟨j, hj⟩).recency →
        (out.get ⟨j, hj⟩).recencyScore ≤ (out.get ⟨i, hi⟩).recencyScore) ∧
      ((out.get ⟨i, hi⟩).monetary ≤ (out.get ⟨j, hj⟩).monetary →
        (out.get ⟨i, hi⟩).monetaryScore ≤ (out.get ⟨j, hj⟩).monetaryScore) ∧
      ((out.get ⟨i, hi⟩).frequency < (out.get ⟨j, hj⟩).frequency →
        (out.get ⟨i, hi⟩).frequencyScore ≤ (out.get ⟨j, hj⟩).frequencyScore) := by
  obtain ⟨rs, fs, ms, hr, hf, hm, hout⟩ := create_segment_elim h
  obtain ⟨hndr, hrs⟩ := qcut_elim hr
  obtain ⟨hndf, hfs⟩ := qcut_elim hf
  obtain ⟨hndm, hms⟩ := qcut_elim hm
  have hlenR : (recencyValues df).length = (rfmKept df).length := by
    unfold recencyValues
    simp
  have hlenF : (frequencyValues df).length = (rfmKept df).length := by
    unfold frequencyValues
    simp
  have hlenM : (monetaryValues df).length = (rfmKept df).length := by
    unfold monetaryValues
    simp
  have hgetR : ∀ i, i < (rfmKept df).length → rs.getD i 0 =
      5 - binIndex (recencyValues df) ((recencyValues df).getD i 0) := by
    intro i hi
    rw [hrs, getD_map_eq _ _ i (by omega) 0 0]
    exact label_inv_getD _ (binIndex_le_four _ _)
  have hgetF : ∀ i, i < (rfmKept df).length → fs.getD i 0 =
      binIndex (rankFirst (frequencyValues df))
        ((rankFirst (frequencyValues df)).getD i 0) + 1 := by
    intro i hi
    rw [hfs, getD_map_eq _ _ i (by rw [rankFirst_length]; omega) 0 0]
    exact label_dir_getD _ (binIndex_le_four _ _)
  have hgetM : ∀ i, i < (rfmKept df).length → ms.getD i 0 =
      binIndex (monetaryValues df) ((monetaryValues df).getD i 0) + 1 := by
    intro i hi
    rw [hms, getD_map_eq _ _ i (by omega) 0 0]
    exact label_dir_getD _ (binIndex_le_four _ _)
  have hvalR : ∀ i, i < (rfmKept df).length → (recencyValues df).getD i 0 =
      (((rfmKept df).getD i defaultRfm).recency : ℚ) := by
    intro i hi
    unfold recencyValues
    rw [getD_map_eq _ _ i hi 0 defaultRfm]
  have hvalF : ∀ i, i < (rfmKept df).length → (frequencyValues df).getD i 0 =
      (((rfmKept df).getD i defaultRfm).frequency : ℚ) := by
    intro i hi
    unfold frequencyValues
    rw [getD_map_eq _ _ i hi 0 defaultRfm]
  have hvalM : ∀ i, i < (rfmKept df).length → (monetaryValues df).getD i 0 =
      ((rfmKept df).getD i defaultRfm).monetary := by
    intro i hi
    unfold monetaryValues
    rw [getD_map_eq _ _ i hi 0 defaultRfm]
  subst hout
  have hget : ∀ (i : ℕ) (hi2 : i <
      ((List.range (rfmKept df).length).map (fun i =>
        scoreRow ((rfmKept df).getD i defaultRfm)
          (rs.getD i 0) (fs.getD i 0) (ms.getD i 0))).length),
      ((List.range (rfmKept df).length).map (fun i =>
        scoreRow ((rfmKept df).getD i defaultRfm)
          (rs.getD i 0) (fs.getD i 0) (ms.getD i 0))).get ⟨i, hi2⟩ =
        scoreRow ((rfmKept df).getD i defaultRfm)
          (rs.getD i 0) (fs.getD i 0) (ms.getD i 0) := by
    intro i hi2
    rw [List.get_eq_getElem, List.getElem_map, List.getElem_range]
  constructor
  · intro s hs
    rw [List.mem_map] at hs
    obtain ⟨i, hi0, rfl⟩ := hs
    rw [List.mem_range] at hi0
    refine ⟨?_, ?_, ?_, rfl, rfl⟩
    · rw [show (scoreRow ((rfmKept df).getD i defaultRfm)
          (rs.getD i 0) (fs.getD i 0) (ms.getD i 0)).recencyScore =
          rs.getD i 0 from rfl, hgetR i hi0]
      have := binIndex_le_four (recencyValues df) ((recencyValues df).getD i 0)
      omega
    · rw [show (scoreRow ((rfmKept df).getD i defaultRfm)
          (rs.getD i 0) (fs.getD i 0) (ms.getD i 0)).frequencyScore =
          fs.getD i 0 from rfl, hgetF i hi0]
      have := binIndex_le_four (rankFirst (frequencyValues df))
        ((rankFirst (frequencyValues df)).getD i 0)
      omega
    · rw [show (scoreRow ((rfmKept df).getD i defaultRfm)
          (rs.getD i 0) (fs.getD i 0) (ms.getD i 0)).monetaryScore =
          ms.getD i 0 from rfl, hgetM i hi0]
      have := binIndex_le_four (monetaryValues df)
        ((monetaryValues df).getD i 0)
      omega
  · intro i j hi hj
    have hi0 : i < (rfmKept df).length := by simpa using hi
    have hj0 : j < (rfmKept df).length := by simpa using hj
    rw [hget i hi, hget j hj]
    simp only [scoreRow]
    refine ⟨?_, ?_, ?_⟩
    · intro hrec
      rw [hgetR i hi0, hgetR j hj0]
      have hmono : binIndex (recencyValues df) ((recencyValues df).getD i 0) ≤
          binIndex (recencyValues df) ((recencyValues df).getD j 0) := by
        apply binIndex_mono
        rw [hvalR i hi0, hvalR j hj0]
        exact_mod_cast hrec
      have h4i := binIndex_le_four (recencyValues df)
        ((recencyValues df).getD i 0)
      omega
    · intro hmon
      rw [hgetM i hi0, hgetM j hj0]
      have hmono : binIndex (monetaryValues df) ((monetaryValues df).getD i 0) ≤
          binIndex (monetaryValues df) ((monetaryValues df).getD j 0) := by
        apply binIndex_mono
        rw [hvalM i hi0, hvalM j hj0]
        exact hmon
      omega
    · intro hfreq
      rw [hgetF i hi0, hgetF j hj0]
      have hrank : rankAt (frequencyValues df) i <
          rankAt (frequencyValues df) j := by
        apply rankAt_lt_of_lt (by omega) (by omega)
        rw [hvalF i hi0, hvalF j hj0]
        exact_mod_cast hfreq
      have hmono : binIndex (rankFirst (frequencyValues df))
          ((rankFirst (frequencyValues df)).getD i 0) ≤
          binIndex (rankFirst (frequencyValues df))
            ((rankFirst (frequencyValues df)).getD j 0) := by
        apply binIndex_mono
        rw [rankFirst_getD _ i (by omega), rankFirst_getD _ j (by omega)]
        exact_mod_cast le_of_lt hrank
      omega

/-- Witness for C8 on `testTableA`. -/
theorem score_directions_and_rf_code_witness :
    (segOutA.getD 0 defaultSeg).rfScore =
      toString (segOutA.getD 0 defaultSeg).recencyScore ++
        toString (segOutA.getD 0 defaultSeg).frequencyScore ∧
      (segOutA.getD 0 defaultSeg).customerSegment =
        applySegmentMap
          (toString (segOutA.getD 0 defaultSeg).recencyScore ++
            toString (segOutA.getD 0 defaultSeg).frequencyScore) :=
  have h9 := (score_directions_and_rf_code testTableA segOutA
    (by with_unfolding_all rfl)).1 _
    (getD_mem_of_lt segOutA 0 defaultSeg (by with_unfolding_all decide))
  ⟨h9.2.2.2.1, h9.2.2.2.2⟩

/-- Reading every position of a list gives back the list (helper). -/
theorem map_getD_range {α : Type} (l : List α) (d : α) :
    (List.range l.length).map (fun i => l.getD i d) = l := by
  refine List.ext_getElem (by simp) ?_
  intro i h1 h2
  simp only [List.getElem_map, List.getElem_range]
  rw [List.getD_eq_getElem l d h2]

/-- Counting a predicate over positions equals counting it over the list
(helper). -/
theorem countP_range_getD {α : Type} (l : List α) (d : α) (p : α → Bool) :
    (List.range l.length).countP (fun i => p (l.getD i d)) = l.countP p := by
  conv_rhs => rw [← map_getD_range l d]
  rw [List.countP_map]
  rfl

/-- Counting the members of a half-open interval inside `range n`
(helper). -/
theorem countP_range_interval (a c n : ℕ) :
    (List.range n).countP (fun k => decide (a ≤ k ∧ k < c)) =
      min c n - min a n := by
  induction n with
  | zero => simp
  | succ m ih =>
    rw [List.range_succ, List.countP_append, ih]
    simp only [List.countP_cons, List.countP_nil]
    by_cases h1 : a ≤ m ∧ m < c
    · rw [if_pos (decide_eq_true h1)]
      omega
    · rw [if_neg (by simp only [decide_eq_true_eq]; exact h1)]
      omega

/-- The ranks produced by `rank(method="first")` are a permutation of
`1, …, n` (helper). -/
theorem rankFirst_perm (xs : List ℚ) :
    (rankFirst xs).Perm
      ((List.range xs.length).map (fun k => ((k + 1 : ℕ) : ℚ))) := by
  have hinj : ∀ a ∈ List.range xs.length, ∀ b ∈ List.range xs.length,
      rankAt xs a = rankAt xs b → a = b := by
    intro a ha b hb heq
    rw [List.mem_range] at ha hb
    by_contra hne
    rcases lt_trichotomy (xs.getD a 0) (xs.getD b 0) with h | h | h
    · exact absurd heq (Nat.ne_of_lt (rankAt_lt_of_lt ha hb h))
    · rcases Nat.lt_or_ge a b with hab | hab
      · exact absurd heq (Nat.ne_of_lt (rankAt_lt_of_eq hab hb h))
      · have hba : b < a := by omega
        exact absurd heq.symm (Nat.ne_of_lt (rankAt_lt_of_eq hba ha h.symm))
    · exact absurd heq.symm (Nat.ne_of_lt (rankAt_lt_of_lt hb ha h))
  have hnodup : ((List.range xs.length).map (rankAt xs)).Nodup :=
    List.Nodup.map_on hinj (List.nodup_range _)
  have hsub : (List.range xs.length).map (rankAt xs) ⊆
      (List.range xs.length).map (fun k => k + 1) := by
    intro x hx
    rw [List.mem_map] at hx
    obtain ⟨i, hi, rfl⟩ := hx
    rw [List.mem_range] at hi
    rw [List.mem_map]
    have h1 := rankAt_le_length hi
    have h2 := rankAt_pos hi
    refine ⟨rankAt xs i - 1, ?_, ?_⟩
    · rw [List.mem_range]
      omega
    · omega
  have hperm : ((List.range xs.length).map (rankAt xs)).Perm
      ((List.range xs.length).map (fun k => k + 1)) :=
    List.Subperm.perm_of_length_le (List.subperm_of_subset hnodup hsub)
      (by simp)
  have hmap := hperm.map (fun k : ℕ => (k : ℚ))
  rw [List.map_map, List.map_map] at hmap
  exact hmap

/-- Sorting the ranks yields exactly the ascending list `1, …, n`
(helper). -/
theorem sort_rankFirst (xs : List ℚ) :
    List.insertionSort (· ≤ ·) (rankFirst xs) =
      (List.range xs.length).map (fun k => ((k + 1 : ℕ) : ℚ)) := by
  refine @List.eq_of_perm_of_sorted ℚ (· ≤ ·) ?_ _ _
    ((List.perm_insertionSort (· ≤ ·) _).trans (rankFirst_perm xs)) ?_ ?_
  · infer_instance
  · exact List.sorted_insertionSort _ _
  · rw [List.Sorted, List.pairwise_map]
    refine (List.pairwise_lt_range _).imp ?_
    intro a b hab
    have h9 : a + 1 ≤ b + 1 := by omega
    exact_mod_cast h9

/-- The interpolated quantile of the ascending series `1, …, n` is
`1 + (n−1)·j/5` at the quantile point `j/5` (helper). -/
theorem quantileSorted_oneToN (n : ℕ) (hn : 1 ≤ n) (j : ℕ) (hj : j ≤ 5) :
    quantileSorted ((List.range n).map (fun k => ((k + 1 : ℕ) : ℚ)))
        ((j : ℚ) / 5) =
      1 + (((n - 1) * j : ℕ) : ℚ) / 5 := by
  have hslen : ((List.range n).map (fun k => ((k + 1 : ℕ) : ℚ))).length = n := by
    simp
  have hsget : ∀ k, k < n →
      ((List.range n).map (fun k2 => ((k2 + 1 : ℕ) : ℚ))).getD k 0 =
        ((k + 1 : ℕ) : ℚ) := by
    intro k hk
    have h9 : (List.range n).getD k 0 = k := by
      rw [List.getD_eq_getElem _ _ (by simpa using hk), List.getElem_range]
    rw [getD_map_eq _ _ k (by simpa using hk) 0 0, h9]
  rw [quantileSorted_def, hslen]
  have hP : (j : ℚ) / 5 * ((n : ℚ) - 1) = (((n - 1) * j : ℕ) : ℚ) / 5 := by
    push_cast [Nat.cast_sub hn]
    ring
  rw [hP]
  have hfloor : ⌊(((n - 1) * j : ℕ) : ℚ) / 5⌋ = (((n - 1) * j / 5 : ℕ) : ℤ) := by
    have h9 := Rat.floor_natCast_div_natCast ((n - 1) * j) 5
    have h10 : ((5 : ℕ) : ℚ) = (5 : ℚ) := by norm_cast
    rw [h10] at h9
    exact_mod_cast h9
  rw [hfloor, Int.toNat_natCast]
  have hiM : (n - 1) * j / 5 ≤ n - 1 := by
    calc (n - 1) * j / 5 ≤ (n - 1) * 5 / 5 :=
          Nat.div_le_div_right (Nat.mul_le_mul_left _ hj)
    _ = n - 1 := by omega
  by_cases hbr : (n - 1) * j / 5 + 1 < n
  · rw [if_pos hbr, hsget ((n - 1) * j / 5) (by omega),
      hsget ((n - 1) * j / 5 + 1) (by omega)]
    push_cast
    ring
  · rw [if_neg hbr, hsget ((n - 1) * j / 5) (by omega)]
    have hieq : (n - 1) * j / 5 = n - 1 := by omega
    have hle : (((n - 1) * j : ℕ) : ℚ) / 5 ≤ ((n - 1 : ℕ) : ℚ) := by
      rw [div_le_iff (by norm_num : (0:ℚ) < 5)]
      exact_mod_cast Nat.mul_le_mul_left _ hj
    have hge : ((n - 1 : ℕ) : ℚ) ≤ (((n - 1) * j : ℕ) : ℚ) / 5 := by
      have h9 : ((((n - 1) * j / 5 : ℕ) : ℤ) : ℚ) ≤ (((n - 1) * j : ℕ) : ℚ) / 5 := by
        rw [← hfloor]
        exact Int.floor_le _
      rw [hieq] at h9
      exact_mod_cast h9
    have heqq : (((n - 1) * j : ℕ) : ℚ) / 5 = ((n - 1 : ℕ) : ℚ) :=
      le_antisymm hle hge
    rw [hieq, heqq]
    push_cast [Nat.cast_sub hn]
    ring

/-- The interior bin edges of the rank series (helper). -/
theorem innerEdges_rankFirst (xs : List ℚ) (hn : 1 ≤ xs.length) :
    innerEdges (rankFirst xs) =
      [1 + (((xs.length - 1) * 1 : ℕ) : ℚ) / 5,
       1 + (((xs.length - 1) * 2 : ℕ) : ℚ) / 5,
       1 + (((xs.length - 1) * 3 : ℕ) : ℚ) / 5,
       1 + (((xs.length - 1) * 4 : ℕ) : ℚ) / 5] := by
  have hq : ∀ j : ℕ, j ≤ 5 → quantile (rankFirst xs) ((j : ℚ) / 5) =
      1 + (((xs.length - 1) * j : ℕ) : ℚ) / 5 := by
    intro j hj
    unfold quantile
    rw [sort_rankFirst]
    exact quantileSorted_oneToN xs.length hn j hj
  unfold innerEdges qcutEdges
  rw [show List.range 6 = [0, 1, 2, 3, 4, 5] from rfl]
  simp only [List.map_cons, List.map_nil]
  rw [hq 0 (by omega), hq 1 (by omega), hq 2 (by omega), hq 3 (by omega),
    hq 4 (by omega), hq 5 (by omega)]
  rfl

/-- The bin index of the rank `k + 1` among the rank series, as an integer
count (helper). -/
theorem binIndex_rank (xs : List ℚ) (hn : 1 ≤ xs.length) (k : ℕ) :
    binIndex (rankFirst xs) ((k + 1 : ℕ) : ℚ) =
      [1, 2, 3, 4].countP (fun j => decide ((xs.length - 1) * j < 5 * k)) := by
  unfold binIndex
  rw [innerEdges_rankFirst xs hn]
  have hiff : ∀ j : ℕ, (1 + (((xs.length - 1) * j : ℕ) : ℚ) / 5 <
      ((k + 1 : ℕ) : ℚ)) ↔ ((xs.length - 1) * j < 5 * k) := by
    intro j
    constructor
    · intro h9
      have h10 : (((xs.length - 1) * j : ℕ) : ℚ) / 5 < (k : ℚ) := by
        push_cast
        push_cast at h9
        linarith
      have h11 : (((xs.length - 1) * j : ℕ) : ℚ) < (k : ℚ) * 5 :=
        (div_lt_iff (by norm_num : (0:ℚ) < 5)).mp h10
      have h12 : (((xs.length - 1) * j : ℕ) : ℚ) < ((5 * k : ℕ) : ℚ) := by
        push_cast
        push_cast at h11
        linarith
      exact_mod_cast h12
    · intro h9
      have h12 : (((xs.length - 1) * j : ℕ) : ℚ) < ((5 * k : ℕ) : ℚ) := by
        exact_mod_cast h9
      have h10 : (((xs.length - 1) * j : ℕ) : ℚ) / 5 < (k : ℚ) := by
        rw [div_lt_iff (by norm_num : (0:ℚ) < 5)]
        push_cast at h12 ⊢
        linarith
      push_cast at h10 ⊢
      linarith
  simp only [List.countP_cons, List.countP_nil, decide_eq_true_eq, hiff]

/-- C7 (amended).  FrequencyScore partitions the scored customers into 5
groups of as-equal-as-possible size: thanks to the stable
`rank(method="first")` tie-break, every frequency bin has either `⌊n/5⌋` or
`⌈n/5⌉ = (n+4)/5` members, `n` being the number of scored customers.  (The
claim as frozen also asserts this for RecencyScore and MonetaryScore, which
is refuted by `recency_bins_unequal_on_duplicates`.) -/
theorem frequency_bins_as_equal_as_possible (df : List CleanRow)
    (out : List SegRow) (h : create_segment_dataframe df = some out)
    (b : ℕ) (hb1 : 1 ≤ b) (hb5 : b ≤ 5) :
    out.countP (fun s => decide (s.frequencyScore = b)) = out.length / 5 ∨
      out.countP (fun s => decide (s.frequencyScore = b)) =
        (out.length + 4) / 5 := by
  obtain ⟨rs, fs, ms, hr, hf, hm, hout⟩ := create_segment_elim h
  obtain ⟨hndf, hfs⟩ := qcut_elim hf
  have hlenF : (frequencyValues df).length = (rfmKept df).length := by
    unfold frequencyValues
    simp
  have hn1 : 1 ≤ (frequencyValues df).length := by
    by_contra h0
    have hz : frequencyValues df = [] := by
      cases hq : frequencyValues df with
      | nil => rfl
      | cons a l =>
        rw [hq] at h0
        simp at h0
    rw [hz] at hndf
    have hedges : qcutEdges (rankFirst []) = [0, 0, 0, 0, 0, 0] := by
      with_unfolding_all rfl
    rw [hedges] at hndf
    simp at hndf
  subst hout
  have hstep1 : ((List.range (rfmKept df).length).map (fun i =>
        scoreRow ((rfmKept df).getD i defaultRfm)
          (rs.getD i 0) (fs.getD i 0) (ms.getD i 0))).countP
        (fun s => decide (s.frequencyScore = b)) =
      (List.range (rfmKept df).length).countP
        (fun i => decide (fs.getD i 0 = b)) := by
    rw [List.countP_map]
    rfl
  have hfslen : fs.length = (rfmKept df).length := by
    rw [hfs]
    simp [rankFirst_length, hlenF]
  have hstep2 : (List.range (rfmKept df).length).countP
        (fun i => decide (fs.getD i 0 = b)) =
      fs.countP (fun x => decide (x = b)) := by
    rw [← hfslen]
    exact countP_range_getD fs 0 (fun x => decide (x = b))
  have hstep3 : fs.countP (fun x => decide (x = b)) =
      (rankFirst (frequencyValues df)).countP (fun v =>
        decide (List.getD [1, 2, 3, 4, 5]
          (binIndex (rankFirst (frequencyValues df)) v) 0 = b)) := by
    rw [hfs, List.countP_map]
    rfl
  have hstep4 : (rankFirst (frequencyValues df)).countP (fun v =>
        decide (List.getD [1, 2, 3, 4, 5]
          (binIndex (rankFirst (frequencyValues df)) v) 0 = b)) =
      ((List.range (frequencyValues df).length).map
          (fun k => ((k + 1 : ℕ) : ℚ))).countP (fun v =>
        decide (List.getD [1, 2, 3, 4, 5]
          (binIndex (rankFirst (frequencyValues df)) v) 0 = b)) :=
    List.Perm.countP_eq _ (rankFirst_perm (frequencyValues df))
  rw [hstep1, hstep2, hstep3, hstep4, List.countP_map]
  simp only [List.length_map, List.length_range]
  rw [← hlenF]
  have hmain : ∀ A C : ℕ,
      (∀ k : ℕ, k < (frequencyValues df).length →
        ([1, 2, 3, 4].countP (fun j =>
          decide (((frequencyValues df).length - 1) * j < 5 * k)) + 1 = b ↔
        (A ≤ k ∧ k < C))) →
      (List.range (frequencyValues df).length).countP
          ((fun v => decide (List.getD [1, 2, 3, 4, 5]
            (binIndex (rankFirst (frequencyValues df)) v) 0 = b)) ∘
            (fun k => ((k + 1 : ℕ) : ℚ))) =
        min C (frequencyValues df).length -
          min A (frequencyValues df).length := by
    intro A C hiff
    have hcongr : ∀ k ∈ List.range (frequencyValues df).length,
        ((fun v => decide (List.getD [1, 2, 3, 4, 5]
            (binIndex (rankFirst (frequencyValues df)) v) 0 = b)) ∘
          (fun k2 => ((k2 + 1 : ℕ) : ℚ))) k = true ↔
          (fun k2 => decide (A ≤ k2 ∧ k2 < C)) k = true := by
      intro k hk
      simp only [Function.comp_apply, decide_eq_true_eq]
      rw [label_dir_getD _ (binIndex_le_four _ _), binIndex_rank _ hn1 k]
      exact hiff k (List.mem_range.mp hk)
    rw [List.countP_congr hcongr, countP_range_interval]
  obtain ⟨q, r, hqr, hr5⟩ : ∃ q r,
      (frequencyValues df).length - 1 = 5 * q + r ∧ r < 5 :=
    ⟨((frequencyValues df).length - 1) / 5,
      ((frequencyValues df).length - 1) % 5, by omega, by omega⟩
  interval_cases b
  · rw [hmain 0 (((frequencyValues df).length - 1) * 1 / 5 + 1) ?_]
    · interval_cases r <;> omega
    · intro k hk
      simp only [List.countP_cons, List.countP_nil, decide_eq_true_eq]
      split_ifs <;> omega
  · rw [hmain (((frequencyValues df).length - 1) * 1 / 5 + 1)
      (((frequencyValues df).length - 1) * 2 / 5 + 1) ?_]
    · interval_cases r <;> omega
    · intro k hk
      simp only [List.countP_cons, List.countP_nil, decide_eq_true_eq]
      split_ifs <;> omega
  · rw [hmain (((frequencyValues df).length - 1) * 2 / 5 + 1)
      (((frequencyValues df).length - 1) * 3 / 5 + 1) ?_]
    · interval_cases r <;> omega
    · intro k hk
      simp only [List.countP_cons, List.countP_nil, decide_eq_true_eq]
      split_ifs <;> omega
  · rw [hmain (((frequencyValues df).length - 1) * 3 / 5 + 1)
      (((frequencyValues df).length - 1) * 4 / 5 + 1) ?_]
    · interval_cases r <;> omega
    · intro k hk
      simp only [List.countP_cons, List.countP_nil, decide_eq_true_eq]
      split_ifs <;> omega
  · rw [hmain (((frequencyValues df).length - 1) * 4 / 5 + 1)
      (((frequencyValues df).length - 1) * 5 / 5 + 1) ?_]
    · interval_cases r <;> omega
    · intro k hk
      simp only [List.countP_cons, List.countP_nil, decide_eq_true_eq]
      split_ifs <;> omega

/-- C7 (counterexample).  On the ten-customer table with the duplicated
recency value 2, the lowest-recency bin (RecencyScore 5) holds 3 of the 10
customers, while as-equal-as-possible quintiles would hold 10 / 5 = 2: the
RecencyScore partition is not as-equal-as-possible. -/
theorem recency_bins_unequal_on_duplicates :
    (create_segment_dataframe testTableB).map (fun out =>
        (out.length, out.countP (fun s => decide (s.recencyScore = 5)))) =
      some (10, 3) ∧ (3 : ℕ) ≠ 10 / 5 := by
  constructor
  · with_unfolding_all rfl
  · decide

/-- Witness for C7 (amended) on `testTableA` at bin 3. -/
theorem frequency_bins_as_equal_as_possible_witness :
    segOutA.countP (fun s => decide (s.frequencyScore = 3)) =
        segOutA.length / 5 ∨
      segOutA.countP (fun s => decide (s.frequencyScore = 3)) =
        (segOutA.length + 4) / 5 :=
  frequency_bins_as_equal_as_possible testTableA segOutA
    (by with_unfolding_all rfl) 3 (by decide) (by decide)

end RFM
